import Mathlib

set_option maxRecDepth 8192

/-!
Verification development for the orama in-memory search engine
(components: the sorter component `sorter.ts` and the index component).

The embedding models JS `Map` objects and plain objects used as
dictionaries by association lists whose `set` overwrites an existing key
in place and appends a fresh key at the end (JS insertion-order
semantics; keys of a JS `Map` are unique, so first-occurrence operations
agree with the JS behaviour), JS numbers by exact rationals extended
with `NaN` and the two infinities, and `Array.prototype.sort(cmp)` by a
stable insertion sort that keeps an earlier element before a later one
exactly when `cmp` returns a non-positive value on that pair.
-/

namespace Orama

attribute [local semireducible] Rat.add Rat.mul Rat.sub Rat.inv

/-- Lookup of a key in the association-list model of a JS `Map` / plain
object: the value of the first entry carrying the key. -/
def aget {κ α : Type} [DecidableEq κ] : List (κ × α) → κ → Option α
  | [], _ => none
  | e :: m, k => if e.1 = k then some e.2 else aget m k

/-- Update in the association-list model of a JS `Map` / plain object:
overwrites an existing key in place, appends a fresh key at the end. -/
def aset {κ α : Type} [DecidableEq κ] : List (κ × α) → κ → α → List (κ × α)
  | [], k, v => [(k, v)]
  | e :: m, k, v => if e.1 = k then (k, v) :: m else e :: aset m k v

/-- Deletion in the association-list model of a JS `Map`: removes the
entry carrying the key. -/
def adel {κ α : Type} [DecidableEq κ] : List (κ × α) → κ → List (κ × α)
  | [], _ => []
  | e :: m, k => if e.1 = k then m else e :: adel m k

/-! Sorter component (`sorter.ts`), modelled per sortable property.

A `PropSort` is the `sorts[prop]` record of the source: the position map
`docs`, the lazily sorted `orderedDocs` sequence, the deferred-removal
set `orderedDocsToRemove`, together with the sorter-level `isSorted`
flag, which in the source is shared by all properties but evolves
identically for each of them under insert/remove and the ensure step.
Document ids are the interned internal ids (natural numbers). -/

structure PropSort (V : Type) where
  docs : List (Nat × Nat)
  orderedDocs : List (Nat × V)
  orderedDocsToRemove : List Nat
  isSorted : Bool
deriving DecidableEq

/-- Fresh per-property sorter state, as built by `innerCreate`. -/
def initPropSort (V : Type) : PropSort V :=
  { docs := [], orderedDocs := [], orderedDocsToRemove := [], isSorted := true }

/-- Sorter `insert`: record the position at the end of `orderedDocs`,
push the pair, and mark the sorter dirty. -/
def sorterInsert {V : Type} (s : PropSort V) (id : Nat) (value : V) : PropSort V :=
  { docs := aset s.docs id s.orderedDocs.length
    orderedDocs := s.orderedDocs ++ [(id, value)]
    orderedDocsToRemove := s.orderedDocsToRemove
    isSorted := false }

/-- Sorter `remove`: the source checks the looked-up position with
`if (!index) return`, so both a missing id and an id recorded at
position `0` take the early return; otherwise the id is deleted from
`docs` and queued in `orderedDocsToRemove`. -/
def sorterRemove {V : Type} (s : PropSort V) (id : Nat) : PropSort V :=
  match aget s.docs id with
  | none => s
  | some index =>
    if index = 0 then s
    else
      { s with docs := adel s.docs id
               orderedDocsToRemove := s.orderedDocsToRemove ++ [id] }

/-- Deferred deletion (`ensureOrderedDocsAreDeletedByProperty`): when the
pending set is non-empty, drop the pending ids from `orderedDocs` and
clear the set. -/
def ensureOrderedDocsAreDeletedByProperty {V : Type} (s : PropSort V) : PropSort V :=
  if s.orderedDocsToRemove.isEmpty then s
  else
    { s with orderedDocs := s.orderedDocs.filter (fun d => !(s.orderedDocsToRemove.contains d.1))
             orderedDocsToRemove := [] }

/-- Model of `Array.prototype.sort(cmp)`: a stable sort that keeps an
earlier element before a later one exactly when `cmp` is non-positive on
that pair. -/
def jsSort {α : Type} (cmp : α → α → Int) (l : List α) : List α :=
  l.insertionSort (fun a b => cmp a b ≤ 0)

/-- Comparator `numerSort` of the source: difference of the values. -/
def numerSort (value d : Nat × Int) : Int :=
  value.2 - d.2

/-- Comparator `booleanSort` of the source: `d[1] as boolean ? -1 : 1`,
which ignores the first argument entirely. -/
def booleanSort (value d : Nat × Bool) : Int :=
  if d.2 then -1 else 1

/-- Lift a comparator on values to the `(id, value)` pairs that the
source comparators receive (they all read only the value component;
`stringSort` is `localeCompare` with the recorded language, which the
embedding keeps abstract). -/
def liftCmp {V : Type} (vcmp : V → V → Int) (value d : Nat × V) : Int :=
  vcmp value.2 d.2

/-- Rebuild loop of `ensurePropertyIsSorted`: walk the sorted sequence
and store each id's position in `docs`, starting from index `i`. -/
def rebuildDocsFrom {V : Type} (m : List (Nat × Nat)) (i : Nat) :
    List (Nat × V) → List (Nat × Nat)
  | [] => m
  | d :: ds => rebuildDocsFrom (aset m d.1 i) (i + 1) ds

/-- `ensurePropertyIsSorted`: sort `orderedDocs` with the type's
comparator and rewrite every position in `docs`; `ensureIsSorted` then
sets the `isSorted` flag. -/
def ensurePropertyIsSorted {V : Type} (cmp : (Nat × V) → (Nat × V) → Int)
    (s : PropSort V) : PropSort V :=
  { s with orderedDocs := jsSort cmp s.orderedDocs
           docs := rebuildDocsFrom s.docs 0 (jsSort cmp s.orderedDocs)
           isSorted := true }

/-- Ensure step run by `sortBy` (and, per property, by `save`): flush the
deferred deletions, then sort unless the `isSorted` flag is set. -/
def ensureStep {V : Type} (cmp : (Nat × V) → (Nat × V) → Int)
    (s : PropSort V) : PropSort V :=
  if (ensureOrderedDocsAreDeletedByProperty s).isSorted then
    ensureOrderedDocsAreDeletedByProperty s
  else ensurePropertyIsSorted cmp (ensureOrderedDocsAreDeletedByProperty s)

/-- Comparator used by `sortBy` on the candidate `(id, score)` list:
un-indexed documents compare equal among themselves and sort after
indexed ones; indexed documents compare by recorded position, reversed
for descending order. -/
def sortByCompare (isDesc : Bool) (docs : List (Nat × Nat)) (a b : Nat × Int) : Int :=
  match aget docs a.1, aget docs b.1 with
  | none, none => 0
  | none, some _ => 1
  | some _, none => -1
  | some i, some j => if isDesc then (j : Int) - (i : Int) else (i : Int) - (j : Int)

/-- `sortBy`: flush and ensure the property is sorted, then reorder the
candidate list with `sortByCompare` against the refreshed position
map. -/
def sortBy {V : Type} (cmp : (Nat × V) → (Nat × V) → Int) (isDesc : Bool)
    (s : PropSort V) (docIds : List (Nat × Int)) : List (Nat × Int) :=
  jsSort (sortByCompare isDesc (ensureStep cmp s).docs) docIds

/-- Sorter operations arriving between two ensure steps. -/
inductive SortOp (V : Type) where
  | ins (id : Nat) (value : V)
  | rem (id : Nat)

def applySortOp {V : Type} (s : PropSort V) : SortOp V → PropSort V
  | .ins id v => sorterInsert s id v
  | .rem id => sorterRemove s id

def runSortOps {V : Type} (s : PropSort V) (ops : List (SortOp V)) : PropSort V :=
  ops.foldl applySortOp s

/-- Well-formed operation sequences: an id is only inserted while it is
not in `orderedDocs` (the engine inserts each document once per
property). -/
def freshOk {V : Type} (s : PropSort V) : List (SortOp V) → Bool
  | [] => true
  | .ins id v :: ops =>
      !((s.orderedDocs.map Prod.fst).contains id) && freshOk (sorterInsert s id v) ops
  | .rem id :: ops => freshOk (sorterRemove s id) ops

/-- Consistency of the position map with the ordered sequence, as the
specification states it: `docs[p][id] == i` iff `orderedDocs[p][i].id == id`. -/
def docsConsistent {V : Type} (s : PropSort V) : Prop :=
  ∀ id i, aget s.docs id = some i ↔
    ∃ h : i < s.orderedDocs.length, (s.orderedDocs.get ⟨i, h⟩).1 = id

/-- Invariant maintained by well-formed insert/remove sequences between
ensure steps. -/
structure SorterInv {V : Type} (s : PropSort V) : Prop where
  odNodup : (s.orderedDocs.map Prod.fst).Nodup
  docsNodup : (s.docs.map Prod.fst).Nodup
  docsKeys : ∀ id, (aget s.docs id).isSome ↔
    (id ∈ s.orderedDocs.map Prod.fst ∧ id ∉ s.orderedDocsToRemove)
  pendSub : ∀ id ∈ s.orderedDocsToRemove, id ∈ s.orderedDocs.map Prod.fst
  sortedEmpty : s.isSorted = true → s.orderedDocs = []

/-- Ascending boolean order as the specification words it: `true`
precedes `false`. -/
def specBooleanLe (a b : Nat × Bool) : Prop :=
  a.2 = true ∨ b.2 = false

instance : DecidableRel specBooleanLe := fun a b => by
  unfold specBooleanLe
  infer_instance

/-- Statement that every `true`-valued entry precedes every
`false`-valued entry in a sequence. -/
def trueEntriesFirst (l : List (Nat × Bool)) : Prop :=
  ∀ i j : Fin l.length, (l.get i).2 = true → (l.get j).2 = false → (i : Nat) < (j : Nat)

instance (l : List (Nat × Bool)) : Decidable (trueEntriesFirst l) := by
  unfold trueEntriesFirst
  infer_instance

/-- Relation that `sortBy` is claimed to establish on the candidate
list: indexed ids precede un-indexed ones and are ordered by recorded
position (reversed when descending). -/
def sortByKeyRel (isDesc : Bool) (docs : List (Nat × Nat)) (a b : Nat × Int) : Prop :=
  match aget docs a.1, aget docs b.1 with
  | none, none => True
  | none, some _ => False
  | some _, none => True
  | some i, some j => if isDesc then j ≤ i else i ≤ j

/-! Index component (BM25 bookkeeping for one string-typed property, the
boolean buckets, the search guard and the where-clause string branch).
JS numbers are modelled exactly: rationals extended with `NaN` and the
two infinities, with IEEE-style propagation (signed zero is not
distinguished; no operation below depends on it). -/

inductive JSNum where
  | nan : JSNum
  | inf : JSNum
  | ninf : JSNum
  | num : ℚ → JSNum
deriving DecidableEq

def JSNum.add : JSNum → JSNum → JSNum
  | .nan, _ => .nan
  | _, .nan => .nan
  | .inf, .ninf => .nan
  | .ninf, .inf => .nan
  | .inf, _ => .inf
  | _, .inf => .inf
  | .ninf, _ => .ninf
  | _, .ninf => .ninf
  | .num a, .num b => .num (a + b)

def JSNum.sub : JSNum → JSNum → JSNum
  | .nan, _ => .nan
  | _, .nan => .nan
  | .inf, .inf => .nan
  | .ninf, .ninf => .nan
  | .inf, _ => .inf
  | .ninf, _ => .ninf
  | .num _, .inf => .ninf
  | .num _, .ninf => .inf
  | .num a, .num b => .num (a - b)

def JSNum.mul : JSNum → JSNum → JSNum
  | .nan, _ => .nan
  | _, .nan => .nan
  | .inf, .inf => .inf
  | .inf, .ninf => .ninf
  | .ninf, .inf => .ninf
  | .ninf, .ninf => .inf
  | .inf, .num b => if b = 0 then .nan else if 0 < b then .inf else .ninf
  | .num a, .inf => if a = 0 then .nan else if 0 < a then .inf else .ninf
  | .ninf, .num b => if b = 0 then .nan else if 0 < b then .ninf else .inf
  | .num a, .ninf => if a = 0 then .nan else if 0 < a then .ninf else .inf
  | .num a, .num b => .num (a * b)

def JSNum.div : JSNum → JSNum → JSNum
  | .nan, _ => .nan
  | _, .nan => .nan
  | .inf, .inf => .nan
  | .inf, .ninf => .nan
  | .ninf, .inf => .nan
  | .ninf, .ninf => .nan
  | .inf, .num b => if 0 ≤ b then .inf else .ninf
  | .ninf, .num b => if 0 ≤ b then .ninf else .inf
  | .num _, .inf => .num 0
  | .num _, .ninf => .num 0
  | .num a, .num b =>
      if b = 0 then (if a = 0 then .nan else if 0 < a then .inf else .ninf)
      else .num (a / b)

instance : Add JSNum := ⟨JSNum.add⟩

instance : Sub JSNum := ⟨JSNum.sub⟩

instance : Mul JSNum := ⟨JSNum.mul⟩

instance : Div JSNum := ⟨JSNum.div⟩

/-- BM25 bookkeeping of the index for one string-typed property `p`:
`avgFieldLength[p]`, `fieldLengths[p]`, `tokenOccurrencies[p]` (the
source's spelling) and `frequencies[p]`. The source writes `undefined`
into `fieldLengths` and `frequencies` on removal; since every read
treats `undefined` like an absent key, removal is modelled as deletion,
and a read of an absent `fieldLengths` entry feeds `NaN` into the
arithmetic exactly as `undefined` does in JS. -/
structure FieldStats where
  avgFieldLength : JSNum
  fieldLengths : List (Nat × ℚ)
  tokenOccurrencies : List (String × JSNum)
  frequencies : List (Nat × List (String × ℚ))
deriving DecidableEq

/-- Field state right after `create` for a string property: average 0,
empty records. -/
def initFieldStats : FieldStats :=
  { avgFieldLength := JSNum.num 0, fieldLengths := [], tokenOccurrencies := [], frequencies := [] }

/-- Reading `fieldLengths[prop][internalId]!`: an absent entry is
`undefined` and behaves as `NaN` in arithmetic. -/
def jsnOfLength : Option ℚ → JSNum
  | some q => JSNum.num q
  | none => JSNum.nan

/-- `insertDocumentScoreParameters`: incremental mean update of
`avgFieldLength` (the source's `?? 0` fallback never fires here because
`create` initialises the average to 0 and no path deletes it), record
the token count, reset the document's frequency map. -/
def insertDocumentScoreParameters (st : FieldStats) (id : Nat)
    (tokens : List String) (docsCount : Int) : FieldStats :=
  { st with
    avgFieldLength :=
      (st.avgFieldLength * JSNum.num ((docsCount : ℚ) - 1)
        + JSNum.num (tokens.length : ℚ)) / JSNum.num (docsCount : ℚ)
    fieldLengths := aset st.fieldLengths id (tokens.length : ℚ)
    frequencies := aset st.frequencies id [] }

/-- Normalised term frequency `tokenFrequency / tokens.length` computed
by `insertTokenScoreParameters`. -/
def tfValue (tokens : List String) (token : String) : ℚ :=
  (tokens.count token : ℚ) / (tokens.length : ℚ)

/-- `insertTokenScoreParameters`: store the normalised frequency in the
document's map, then increment the token's occurrence counter (creating
it at 0 first when absent). -/
def insertTokenScoreParameters (st : FieldStats) (id : Nat)
    (tokens : List String) (token : String) : FieldStats :=
  { st with
    frequencies := aset st.frequencies id
      (aset ((aget st.frequencies id).getD []) token (tfValue tokens token))
    tokenOccurrencies := aset st.tokenOccurrencies token
      ((match aget st.tokenOccurrencies token with
        | some v => v
        | none => JSNum.num 0) + JSNum.num 1) }

/-- `removeDocumentScoreParameters`: the source computes
`(avg * docsCount - fieldLengths[id]) / (docsCount - 1)` with no special
case for `docsCount == 1`, then clears the document's length and
frequency entries. -/
def removeDocumentScoreParameters (st : FieldStats) (id : Nat)
    (docsCount : Int) : FieldStats :=
  { st with
    avgFieldLength :=
      (st.avgFieldLength * JSNum.num (docsCount : ℚ)
        - jsnOfLength (aget st.fieldLengths id)) / JSNum.num ((docsCount : ℚ) - 1)
    fieldLengths := adel st.fieldLengths id
    frequencies := adel st.frequencies id }

/-- `removeTokenScoreParameters`: `tokenOccurrencies[prop][token]--`;
decrementing an absent entry produces `NaN`, as in JS. -/
def removeTokenScoreParameters (st : FieldStats) (token : String) : FieldStats :=
  { st with
    tokenOccurrencies := aset st.tokenOccurrencies token
      ((match aget st.tokenOccurrencies token with
        | some v => v
        | none => JSNum.nan) - JSNum.num 1) }

/-- String branch of the scalar `insertScalar`: document score
parameters, then one `insertTokenScoreParameters` per token of the
tokenised value (the radix-tree insertion is outside this state). -/
def insertStringScalar (st : FieldStats) (id : Nat) (tokens : List String)
    (docsCount : Int) : FieldStats :=
  tokens.foldl (fun s t => insertTokenScoreParameters s id tokens t)
    (insertDocumentScoreParameters st id tokens docsCount)

/-- String branch of the scalar `removeScalar`: document score
parameters, then one `removeTokenScoreParameters` per token (the
radix-tree removal is outside this state). -/
def removeStringScalar (st : FieldStats) (id : Nat) (tokens : List String)
    (docsCount : Int) : FieldStats :=
  tokens.foldl (fun s t => removeTokenScoreParameters s t)
    (removeDocumentScoreParameters st id docsCount)

/-- `insert` on a `string[]` property: the array path dispatches each
element through the scalar string path with the same `docsCount`. -/
def insertStringArray (st : FieldStats) (id : Nat)
    (elems : List (List String)) (docsCount : Int) : FieldStats :=
  elems.foldl (fun s toks => insertStringScalar s id toks docsCount) st

/-- Floating-point tolerance of the claim: both values are finite and
within `1e-9` of each other. `NaN` is within no tolerance of anything. -/
def withinTolerance (a b : JSNum) : Prop :=
  ∃ qa qb, a = JSNum.num qa ∧ b = JSNum.num qb ∧ |qa - qb| ≤ 1 / 1000000000

/-- JS `indexOf`: index of the first occurrence, `-1` when absent. -/
def jsIndexOf (l : List Nat) (x : Nat) : Int :=
  match l.findIdx? (fun y => y == x) with
  | some i => (i : Int)
  | none => -1

/-- JS `splice(start, 1)`: a negative start counts from the end
(clamped to 0), a start past the end removes nothing; exactly one
element at the resolved position is removed. -/
def jsSpliceRemoveOne (l : List Nat) (start : Int) : List Nat :=
  let actual : Nat :=
    if start < 0 then (max ((l.length : Int) + start) 0).toNat
    else min start.toNat l.length
  l.take actual ++ l.drop (actual + 1)

/-- Boolean index of the source: the `true` and `false` buckets of
internal ids. -/
structure BooleanIndex where
  trueDocs : List Nat
  falseDocs : List Nat
deriving DecidableEq

/-- Boolean branch of `removeScalar`:
`splice(bucket.indexOf(internalId), 1)` on the bucket selected by the
removed value. -/
def removeBooleanScalar (b : BooleanIndex) (value : Bool) (id : Nat) : BooleanIndex :=
  if value then
    { b with trueDocs := jsSpliceRemoveOne b.trueDocs (jsIndexOf b.trueDocs id) }
  else
    { b with falseDocs := jsSpliceRemoveOne b.falseDocs (jsIndexOf b.falseDocs id) }

/-- Occurrence counter as the scoring code reads it: an absent token
counts as 0 (`oramaOccurrencies[term]` guarded by a `typeof` check /
`?? 0`). -/
def occRead (occ : List (String × JSNum)) (t : String) : JSNum :=
  match aget occ t with
  | some v => v
  | none => JSNum.num 0

/-- Occurrence counter of a field state for a token. -/
def occValue (st : FieldStats) (t : String) : JSNum :=
  occRead st.tokenOccurrencies t

/-- Whether a document entry of `frequencies[p]` stores a positive
frequency for token `t`. -/
def hasTok (t : String) (d : Nat × List (String × ℚ)) : Bool :=
  match aget d.2 t with
  | some q => decide (0 < q)
  | none => false

/-- Number of documents whose stored frequency for `t` is positive. -/
def docFreqCount (st : FieldStats) (t : String) : Nat :=
  (st.frequencies.filter (hasTok t)).length

/-- Frequency map written for a document by the per-token loop of the
string insert path. -/
def mkFreqMap (tokens : List String) : List (String × ℚ) :=
  tokens.foldl (fun m t => aset m t (tfValue tokens t)) []

/-- Index-level operations on one string property: insert a document's
token list, or remove it again (the facade removes a document with the
tokenisation of its stored value). -/
inductive IdxOp where
  | ins (id : Nat) (tokens : List String) (docsCount : Int)
  | rem (id : Nat) (tokens : List String) (docsCount : Int)

def applyIdxOp (st : FieldStats) : IdxOp → FieldStats
  | .ins id tokens dc => insertStringScalar st id tokens dc
  | .rem id tokens dc => removeStringScalar st id tokens dc

def runIdxOps (st : FieldStats) (ops : List IdxOp) : FieldStats :=
  ops.foldl applyIdxOp st

/-- Well-formed operation sequences: token lists are duplicate-free (the
default tokenizer deduplicates), a document is only inserted while not
present, and a removal passes the same token list the document was
inserted with (whose frequency map is then still stored). -/
def idxOpsValid (st : FieldStats) : List IdxOp → Bool
  | [] => true
  | .ins id tokens dc :: ops =>
      decide tokens.Nodup && decide (aget st.frequencies id = none)
        && idxOpsValid (insertStringScalar st id tokens dc) ops
  | .rem id tokens dc :: ops =>
      decide tokens.Nodup && decide (aget st.frequencies id = some (mkFreqMap tokens))
        && idxOpsValid (removeStringScalar st id tokens dc) ops

/-- Invariant relating the occurrence counters to the stored frequency
maps on one string property. -/
def IdxInv (st : FieldStats) : Prop :=
  (st.frequencies.map Prod.fst).Nodup ∧
  ∀ t, occValue st t = JSNum.num ((docFreqCount st t : ℚ))

/-- Reading of an occurrence counter by the decrement path:
`occ[token]--` sees `undefined` (here `NaN`) when the token is absent. -/
def occDecRead (occ : List (String × JSNum)) (t : String) : JSNum :=
  match aget occ t with
  | some v => v
  | none => JSNum.nan

/-- Single occurrence increment performed by
`insertTokenScoreParameters`. -/
def occBump (occ : List (String × JSNum)) (t : String) : List (String × JSNum) :=
  aset occ t (occRead occ t + JSNum.num 1)

/-- Occurrence counters after the per-token increment loop of a string
insert. -/
def occBumpAll (occ : List (String × JSNum)) (l : List String) : List (String × JSNum) :=
  l.foldl occBump occ

/-- Single occurrence decrement performed by
`removeTokenScoreParameters`. -/
def occDec (occ : List (String × JSNum)) (t : String) : List (String × JSNum) :=
  aset occ t (occDecRead occ t - JSNum.num 1)

/-- Occurrence counters after the per-token decrement loop of a string
remove. -/
def occDecAll (occ : List (String × JSNum)) (l : List String) : List (String × JSNum) :=
  l.foldl occDec occ

/-- A string-valued where-clause filter: a single string or a list of
strings (`[operation].flat()` in the source). -/
inductive StringFilter where
  | single (s : String)
  | multiple (vs : List String)

/-- `[operation].flat()` of the source. -/
def flatFilterValues : StringFilter → List String
  | .single s => [s]
  | .multiple vs => vs

/-- String branch of `searchByWhereClause` for one property: each raw
value is tokenized, and the exact radix lookup receives `term[0]` — only
the head of the token list; the flattened id lists are pushed in order.
The radix tree itself lives outside this repository's sources, so the
exact lookup is abstracted as a function from the (optional) first token
to the flattened id list that the source pushes. -/
def whereStringCandidates (tokenize : String → List String)
    (radixFindExact : Option String → List Nat)
    (operation : StringFilter) : List Nat :=
  ((flatFilterValues operation).map
    (fun raw => radixFindExact (tokenize raw).head?)).flatten

/-- Tokenizer returning two tokens, the second differing from
`exTokenizerTwo`. -/
def exTokenizerOne : String → List String := fun _ => ["uno", "dos"]

/-- Tokenizer agreeing with `exTokenizerOne` on first tokens only. -/
def exTokenizerTwo : String → List String := fun _ => ["uno", "tres"]

/-- Sample exact radix lookup used by the C9 witness. -/
def exRadixLookup : Option String → List Nat := fun o =>
  match o with
  | some s => if s = "uno" then [4, 7] else [9]
  | none => []

/-- View of the index consulted by the `search` guard: the per-property
occurrence records (only string-typed properties have an entry) and the
rest of the search pipeline, which runs only when the guard passes and
is abstracted as its outcome. -/
def searchOnProperty (occProps : List (String × List (String × JSNum)))
    (prop : String)
    (restOfSearch : Except String (List (Nat × JSNum))) :
    Except String (List (Nat × JSNum)) :=
  if (aget occProps prop).isSome then restOfSearch else Except.ok []

section AssocLemmas

variable {κ α : Type} [DecidableEq κ]

theorem aget_eq_none_of_not_mem {m : List (κ × α)} {k : κ}
    (h : k ∉ m.map Prod.fst) : aget m k = none := by
  induction m with
  | nil => rfl
  | cons e m ih =>
    simp only [List.map_cons, List.mem_cons, not_or] at h
    rw [aget, if_neg (fun he => h.1 he.symm)]
    exact ih h.2

theorem mem_of_aget_isSome {m : List (κ × α)} {k : κ}
    (h : (aget m k).isSome) : k ∈ m.map Prod.fst := by
  by_contra hc
  rw [aget_eq_none_of_not_mem hc] at h
  simp at h

theorem aget_aset_self (m : List (κ × α)) (k : κ) (v : α) :
    aget (aset m k v) k = some v := by
  induction m with
  | nil => simp [aset, aget]
  | cons e m ih =>
    rw [aset]
    by_cases he : e.1 = k
    · rw [if_pos he, aget, if_pos rfl]
    · rw [if_neg he, aget, if_neg he]
      exact ih

theorem aget_aset_ne (m : List (κ × α)) (k k2 : κ) (v : α) (h : k2 ≠ k) :
    aget (aset m k v) k2 = aget m k2 := by
  induction m with
  | nil =>
    rw [aset]
    simp only [aget]
    rw [if_neg (fun hx => h hx.symm)]
  | cons e m ih =>
    rw [aset]
    by_cases he : e.1 = k
    · rw [if_pos he]
      simp only [aget]
      rw [if_neg (fun hx => h hx.symm), if_neg (fun hx => h (hx.symm.trans he))]
    · rw [if_neg he]
      simp only [aget]
      by_cases he2 : e.1 = k2
      · rw [if_pos he2, if_pos he2]
      · rw [if_neg he2, if_neg he2]
        exact ih

theorem aget_isSome_iff_mem (m : List (κ × α)) (k : κ) :
    (aget m k).isSome ↔ k ∈ m.map Prod.fst := by
  constructor
  · exact mem_of_aget_isSome
  · intro h
    induction m with
    | nil => simp at h
    | cons e m ih =>
      simp only [aget]
      by_cases he : e.1 = k
      · rw [if_pos he]; rfl
      · rw [if_neg he]
        simp only [List.map_cons, List.mem_cons] at h
        exact ih (h.resolve_left (fun hx => he hx.symm))

theorem adel_sublist (m : List (κ × α)) (k : κ) : (adel m k).Sublist m := by
  induction m with
  | nil => simp [adel]
  | cons e m ih =>
    rw [adel]
    by_cases he : e.1 = k
    · rw [if_pos he]
      exact (List.sublist_cons_self e m)
    · rw [if_neg he]
      exact ih.cons₂ e

theorem aget_adel_ne (m : List (κ × α)) (k k2 : κ) (h : k2 ≠ k) :
    aget (adel m k) k2 = aget m k2 := by
  induction m with
  | nil => rfl
  | cons e m ih =>
    rw [adel]
    by_cases he : e.1 = k
    · rw [if_pos he]
      simp only [aget]
      rw [if_neg (fun hx => h (hx.symm.trans he))]
    · rw [if_neg he]
      simp only [aget]
      by_cases he2 : e.1 = k2
      · rw [if_pos he2, if_pos he2]
      · rw [if_neg he2, if_neg he2]
        exact ih

theorem aget_adel_self (m : List (κ × α)) (k : κ)
    (hnd : (m.map Prod.fst).Nodup) : aget (adel m k) k = none := by
  induction m with
  | nil => rfl
  | cons e m ih =>
    simp only [List.map_cons, List.nodup_cons] at hnd
    rw [adel]
    by_cases he : e.1 = k
    · rw [if_pos he]
      exact aget_eq_none_of_not_mem (he ▸ hnd.1)
    · rw [if_neg he]
      simp only [aget]
      rw [if_neg he]
      exact ih hnd.2

theorem map_fst_aset_mem (m : List (κ × α)) (k : κ) (v : α)
    (h : k ∈ m.map Prod.fst) : (aset m k v).map Prod.fst = m.map Prod.fst := by
  induction m with
  | nil => simp at h
  | cons e m ih =>
    rw [aset]
    by_cases he : e.1 = k
    · rw [if_pos he]
      simp [he]
    · rw [if_neg he]
      simp only [List.map_cons, List.mem_cons] at h ⊢
      rw [ih (h.resolve_left (fun hx => he hx.symm))]

theorem map_fst_aset_not_mem (m : List (κ × α)) (k : κ) (v : α)
    (h : k ∉ m.map Prod.fst) : (aset m k v).map Prod.fst = m.map Prod.fst ++ [k] := by
  induction m with
  | nil => simp [aset]
  | cons e m ih =>
    simp only [List.map_cons, List.mem_cons, not_or] at h
    rw [aset, if_neg (fun he => h.1 he.symm)]
    simp only [List.map_cons, List.cons_append, List.cons.injEq, true_and]
    exact ih h.2

theorem nodup_map_fst_aset (m : List (κ × α)) (k : κ) (v : α)
    (hnd : (m.map Prod.fst).Nodup) : ((aset m k v).map Prod.fst).Nodup := by
  by_cases h : k ∈ m.map Prod.fst
  · rw [map_fst_aset_mem m k v h]; exact hnd
  · rw [map_fst_aset_not_mem m k v h]
    simp [List.nodup_append, hnd, h]

theorem nodup_map_fst_adel (m : List (κ × α)) (k : κ)
    (hnd : (m.map Prod.fst).Nodup) : ((adel m k).map Prod.fst).Nodup :=
  hnd.sublist ((adel_sublist m k).map Prod.fst)

end AssocLemmas

theorem sorterInv_init (V : Type) : SorterInv (initPropSort V) := by
  refine ⟨List.nodup_nil, List.nodup_nil, ?_, ?_, ?_⟩
  · intro id
    simp [initPropSort, aget]
  · intro id h
    simp [initPropSort] at h
  · intro _
    rfl

theorem sorterInv_insert {V : Type} {s : PropSort V} (h : SorterInv s)
    {id : Nat} (v : V) (hid : id ∉ s.orderedDocs.map Prod.fst) :
    SorterInv (sorterInsert s id v) := by
  refine ⟨?_, ?_, ?_, ?_, ?_⟩
  · simp only [sorterInsert, List.map_append, List.map_cons, List.map_nil]
    simp [List.nodup_append, h.odNodup, hid]
  · exact nodup_map_fst_aset _ _ _ h.docsNodup
  · intro id2
    simp only [sorterInsert, List.map_append, List.map_cons, List.map_nil]
    by_cases he : id2 = id
    · subst he
      rw [aget_aset_self]
      simp only [Option.isSome_some, true_iff]
      constructor
      · simp
      · intro hp
        exact hid (h.pendSub id2 hp)
    · rw [aget_aset_ne _ _ _ _ he, h.docsKeys id2]
      simp [he]
  · intro id2 hp
    simp only [sorterInsert] at hp ⊢
    simp [h.pendSub id2 hp]
  · intro hflag
    simp [sorterInsert] at hflag

theorem sorterRemove_cases {V : Type} (s : PropSort V) (id : Nat) :
    sorterRemove s id = s ∨
      ((aget s.docs id).isSome ∧
        sorterRemove s id =
          { s with docs := adel s.docs id
                   orderedDocsToRemove := s.orderedDocsToRemove ++ [id] }) := by
  unfold sorterRemove
  cases h : aget s.docs id with
  | none => exact Or.inl rfl
  | some index =>
    by_cases hz : index = 0
    · exact Or.inl (by simp [hz])
    · exact Or.inr ⟨rfl, by simp [hz]⟩

theorem sorterInv_remove {V : Type} {s : PropSort V} (h : SorterInv s)
    (id : Nat) : SorterInv (sorterRemove s id) := by
  rcases sorterRemove_cases s id with heq | ⟨hsome, heq⟩
  · rw [heq]
    exact h
  · rw [heq]
    have hmem : id ∈ s.orderedDocs.map Prod.fst ∧ id ∉ s.orderedDocsToRemove :=
      (h.docsKeys id).mp hsome
    refine ⟨h.odNodup, nodup_map_fst_adel _ _ h.docsNodup, ?_, ?_, ?_⟩
    · intro id2
      by_cases he : id2 = id
      · subst he
        rw [aget_adel_self _ _ h.docsNodup]
        simp
      · rw [aget_adel_ne _ _ _ he, h.docsKeys id2]
        simp only [List.mem_append, List.mem_singleton]
        constructor
        · rintro ⟨hm, hp⟩
          exact ⟨hm, fun hc => hp (hc.resolve_right he)⟩
        · rintro ⟨hm, hp⟩
          exact ⟨hm, fun hc => hp (Or.inl hc)⟩
    · intro id2 hp
      rcases List.mem_append.mp hp with hp | hp
      · exact h.pendSub id2 hp
      · rw [List.mem_singleton.mp hp]
        exact hmem.1
    · exact h.sortedEmpty

theorem sorterInv_runOps {V : Type} {s : PropSort V} (h : SorterInv s)
    (ops : List (SortOp V)) (hf : freshOk s ops = true) :
    SorterInv (runSortOps s ops) := by
  induction ops generalizing s with
  | nil => exact h
  | cons op ops ih =>
    cases op with
    | ins id v =>
      rw [freshOk, Bool.and_eq_true] at hf
      have hid : id ∉ s.orderedDocs.map Prod.fst := by
        have hc := hf.1
        rw [Bool.not_eq_true'] at hc
        simpa using hc
      exact ih (sorterInv_insert h v hid) hf.2
    | rem id =>
      rw [freshOk] at hf
      exact ih (sorterInv_remove h id) hf

theorem runSortOps_sortedEmpty {V : Type} (s : PropSort V)
    (h : s.isSorted = true → s.orderedDocs = []) (ops : List (SortOp V)) :
    (runSortOps s ops).isSorted = true → (runSortOps s ops).orderedDocs = [] := by
  induction ops generalizing s with
  | nil => exact h
  | cons op ops ih =>
    refine ih (applySortOp s op) ?_
    cases op with
    | ins id v =>
      intro hc
      simp [applySortOp, sorterInsert] at hc
    | rem id =>
      show (sorterRemove s id).isSorted = true → (sorterRemove s id).orderedDocs = []
      rcases sorterRemove_cases s id with heq | ⟨_, heq⟩
      · rw [heq]
        exact h
      · rw [heq]
        exact h

theorem map_fst_filter_key {V : Type} (p : Nat → Bool) (l : List (Nat × V)) :
    (l.filter (fun d => p d.1)).map Prod.fst = (l.map Prod.fst).filter p := by
  induction l with
  | nil => rfl
  | cons d ds ih =>
    by_cases h : p d.1
    · simp [List.filter_cons, h, ih]
    · simp only [Bool.not_eq_true] at h
      simp [List.filter_cons, h, ih]

theorem flush_docs {V : Type} (s : PropSort V) :
    (ensureOrderedDocsAreDeletedByProperty s).docs = s.docs := by
  unfold ensureOrderedDocsAreDeletedByProperty
  by_cases h : s.orderedDocsToRemove.isEmpty
  · rw [if_pos h]
  · rw [if_neg h]

theorem flush_isSorted {V : Type} (s : PropSort V) :
    (ensureOrderedDocsAreDeletedByProperty s).isSorted = s.isSorted := by
  unfold ensureOrderedDocsAreDeletedByProperty
  by_cases h : s.orderedDocsToRemove.isEmpty
  · rw [if_pos h]
  · rw [if_neg h]

theorem flush_odNodup {V : Type} {s : PropSort V} (h : SorterInv s) :
    ((ensureOrderedDocsAreDeletedByProperty s).orderedDocs.map Prod.fst).Nodup := by
  unfold ensureOrderedDocsAreDeletedByProperty
  by_cases hp : s.orderedDocsToRemove.isEmpty
  · rw [if_pos hp]
    exact h.odNodup
  · rw [if_neg hp]
    simp only
    rw [map_fst_filter_key (fun k => !(s.orderedDocsToRemove.contains k))]
    exact h.odNodup.filter _

theorem flush_docsKeys {V : Type} {s : PropSort V} (h : SorterInv s) :
    ∀ id, (aget (ensureOrderedDocsAreDeletedByProperty s).docs id).isSome ↔
      id ∈ (ensureOrderedDocsAreDeletedByProperty s).orderedDocs.map Prod.fst := by
  intro id
  unfold ensureOrderedDocsAreDeletedByProperty
  by_cases hp : s.orderedDocsToRemove.isEmpty
  · rw [if_pos hp, h.docsKeys id]
    rw [List.isEmpty_iff] at hp
    simp [hp]
  · rw [if_neg hp]
    simp only
    rw [map_fst_filter_key (fun k => !(s.orderedDocsToRemove.contains k)),
      h.docsKeys id, List.mem_filter]
    simp

theorem flush_sortedEmpty {V : Type} {s : PropSort V}
    (h : s.isSorted = true → s.orderedDocs = []) :
    (ensureOrderedDocsAreDeletedByProperty s).isSorted = true →
      (ensureOrderedDocsAreDeletedByProperty s).orderedDocs = [] := by
  intro hflag
  rw [flush_isSorted] at hflag
  have hod := h hflag
  unfold ensureOrderedDocsAreDeletedByProperty
  by_cases hp : s.orderedDocsToRemove.isEmpty
  · rw [if_pos hp]
    exact hod
  · rw [if_neg hp]
    simp [hod]

theorem rebuildDocsFrom_aget_not_mem {V : Type} (od : List (Nat × V))
    (m : List (Nat × Nat)) (i k : Nat) (hk : k ∉ od.map Prod.fst) :
    aget (rebuildDocsFrom m i od) k = aget m k := by
  induction od generalizing m i with
  | nil => rfl
  | cons d ds ih =>
    simp only [List.map_cons, List.mem_cons, not_or] at hk
    rw [rebuildDocsFrom, ih _ _ hk.2, aget_aset_ne _ _ _ _ (fun hx => hk.1 hx)]

theorem rebuildDocsFrom_aget_mem {V : Type} (od : List (Nat × V))
    (m : List (Nat × Nat)) (i k : Nat) (hnd : (od.map Prod.fst).Nodup)
    (hk : k ∈ od.map Prod.fst) :
    ∃ j, ∃ h : j < od.length, (od.get ⟨j, h⟩).1 = k ∧
      aget (rebuildDocsFrom m i od) k = some (i + j) := by
  induction od generalizing m i with
  | nil => simp at hk
  | cons d ds ih =>
    simp only [List.map_cons, List.nodup_cons] at hnd
    by_cases hkd : k = d.1
    · refine ⟨0, by simp, hkd.symm, ?_⟩
      rw [rebuildDocsFrom, rebuildDocsFrom_aget_not_mem ds _ _ _ (hkd ▸ hnd.1)]
      rw [hkd, aget_aset_self]
      simp
    · simp only [List.map_cons, List.mem_cons] at hk
      rcases ih (aset m d.1 i) (i + 1) hnd.2 (hk.resolve_left hkd) with ⟨j, hj, hjk, hv⟩
      refine ⟨j + 1, by simpa using Nat.succ_lt_succ hj, hjk, ?_⟩
      rw [rebuildDocsFrom, hv]
      congr 1
      omega

theorem nodup_get_fst_inj {V : Type} {od : List (Nat × V)}
    (hnd : (od.map Prod.fst).Nodup) {j1 j2 : Nat}
    (h1 : j1 < od.length) (h2 : j2 < od.length)
    (he : (od.get ⟨j1, h1⟩).1 = (od.get ⟨j2, h2⟩).1) : j1 = j2 := by
  have hinj := List.nodup_iff_injective_get.mp hnd
  have hlen : (od.map Prod.fst).length = od.length := List.length_map od Prod.fst
  have hx : (od.map Prod.fst).get ⟨j1, by omega⟩ = (od.map Prod.fst).get ⟨j2, by omega⟩ := by
    simp only [List.get_eq_getElem, List.getElem_map]
    simpa [List.get_eq_getElem] using he
  have := hinj hx
  simpa using congrArg Fin.val this

/-- Pairwise sortedness produced by the `Array.prototype.sort` model for
a comparator that is total and transitive at the non-positive level. -/
theorem jsSort_pairwise {α : Type} (cmp : α → α → Int)
    (htot : ∀ a b, cmp a b ≤ 0 ∨ cmp b a ≤ 0)
    (htrans : ∀ a b c, cmp a b ≤ 0 → cmp b c ≤ 0 → cmp a c ≤ 0)
    (l : List α) : (jsSort cmp l).Pairwise (fun a b => cmp a b ≤ 0) := by
  haveI : IsTotal α (fun a b => cmp a b ≤ 0) := ⟨htot⟩
  haveI : IsTrans α (fun a b => cmp a b ≤ 0) := ⟨fun a b c => htrans a b c⟩
  exact List.sorted_insertionSort _ l

theorem jsSort_perm {α : Type} (cmp : α → α → Int) (l : List α) :
    (jsSort cmp l).Perm l :=
  List.perm_insertionSort _ l

theorem filter_orderedInsert_pos {α : Type} (r : α → α → Prop) [DecidableRel r]
    (P : α → Bool) (x : α) (hx : P x = true)
    (hskip : ∀ y, ¬r x y → P y = false) :
    ∀ l : List α, (List.orderedInsert r x l).filter P = x :: l.filter P := by
  intro l
  induction l with
  | nil => simp [List.orderedInsert, List.filter_cons, hx]
  | cons y l ih =>
    rw [List.orderedInsert]
    by_cases hr : r x y
    · rw [if_pos hr]
      simp [List.filter_cons, hx]
    · rw [if_neg hr, List.filter_cons, hskip y hr]
      simp only [Bool.false_eq_true, if_false, ih, List.filter_cons, hskip y hr]

theorem filter_orderedInsert_neg {α : Type} (r : α → α → Prop) [DecidableRel r]
    (P : α → Bool) (x : α) (hx : P x = false) :
    ∀ l : List α, (List.orderedInsert r x l).filter P = l.filter P := by
  intro l
  induction l with
  | nil => simp [List.orderedInsert, List.filter_cons, hx]
  | cons y l ih =>
    rw [List.orderedInsert]
    by_cases hr : r x y
    · rw [if_pos hr]
      simp [List.filter_cons, hx]
    · rw [if_neg hr, List.filter_cons, List.filter_cons, ih]

/-- Stability of the sort model on a class picked out by `P`: when no
element of the class ever has to move ahead of an element it is compared
against, the class keeps its original relative order. -/
theorem jsSort_filter_stable {α : Type} (cmp : α → α → Int) (P : α → Bool)
    (hA : ∀ x y, P x = true → ¬(cmp x y ≤ 0) → P y = false) (l : List α) :
    (jsSort cmp l).filter P = l.filter P := by
  induction l with
  | nil => rfl
  | cons b l ih =>
    show (List.orderedInsert _ b (List.insertionSort _ l)).filter P = _
    have ih2 : (List.insertionSort (fun a b => cmp a b ≤ 0) l).filter P = l.filter P := ih
    by_cases hb : P b = true
    · rw [filter_orderedInsert_pos _ P b hb (fun y hy => hA b y hb hy), ih2,
        List.filter_cons, hb]
      simp
    · rw [Bool.not_eq_true] at hb
      rw [filter_orderedInsert_neg _ P b hb, ih2, List.filter_cons, hb]
      simp

theorem ensureStep_consistent {V : Type}
    (cmp : (Nat × V) → (Nat × V) → Int) (ops : List (SortOp V))
    (hf : freshOk (initPropSort V) ops = true) :
    docsConsistent (ensureStep cmp (runSortOps (initPropSort V) ops)) := by
  have hinv := sorterInv_runOps (sorterInv_init V) ops hf
  intro id i
  unfold ensureStep
  by_cases hs : (ensureOrderedDocsAreDeletedByProperty (runSortOps (initPropSort V) ops)).isSorted
  · rw [if_pos hs]
    have hod := flush_sortedEmpty hinv.sortedEmpty hs
    rw [hod]
    constructor
    · intro hg
      have hmem := (flush_docsKeys hinv id).mp (by rw [hg]; rfl)
      rw [hod] at hmem
      simp at hmem
    · rintro ⟨h, _⟩
      simp at h
  · rw [if_neg hs]
    simp only [ensurePropertyIsSorted]
    have hperm := (jsSort_perm cmp
      (ensureOrderedDocsAreDeletedByProperty (runSortOps (initPropSort V) ops)).orderedDocs).map Prod.fst
    have hnd : ((jsSort cmp
        (ensureOrderedDocsAreDeletedByProperty (runSortOps (initPropSort V) ops)).orderedDocs).map
          Prod.fst).Nodup :=
      hperm.nodup_iff.mpr (flush_odNodup hinv)
    have hdom : ∀ k, (aget (ensureOrderedDocsAreDeletedByProperty
        (runSortOps (initPropSort V) ops)).docs k).isSome ↔
        k ∈ (jsSort cmp
          (ensureOrderedDocsAreDeletedByProperty (runSortOps (initPropSort V) ops)).orderedDocs).map
            Prod.fst := by
      intro k
      rw [flush_docsKeys hinv k]
      exact ⟨fun h => hperm.mem_iff.mpr h, fun h => hperm.mem_iff.mp h⟩
    constructor
    · intro hg
      by_cases hmem : id ∈ (jsSort cmp
          (ensureOrderedDocsAreDeletedByProperty (runSortOps (initPropSort V) ops)).orderedDocs).map
            Prod.fst
      · rcases rebuildDocsFrom_aget_mem _ _ 0 id hnd hmem with ⟨j, hj, hjk, hv⟩
        rw [hg] at hv
        have hij : i = j := by
          have := Option.some.inj hv
          omega
        subst hij
        exact ⟨hj, hjk⟩
      · rw [rebuildDocsFrom_aget_not_mem _ _ _ _ hmem] at hg
        have : (aget (ensureOrderedDocsAreDeletedByProperty
            (runSortOps (initPropSort V) ops)).docs id).isSome := by
          rw [hg]; rfl
        exact absurd ((hdom id).mp this) hmem
    · rintro ⟨h, hget⟩
      have hmem : id ∈ (jsSort cmp
          (ensureOrderedDocsAreDeletedByProperty (runSortOps (initPropSort V) ops)).orderedDocs).map
            Prod.fst := by
        rw [← hget]
        exact List.mem_map_of_mem Prod.fst (List.get_mem _ _ _)
      rcases rebuildDocsFrom_aget_mem _ ((ensureOrderedDocsAreDeletedByProperty
        (runSortOps (initPropSort V) ops)).docs) 0 id hnd hmem with ⟨j, hj, hjk, hv⟩
      have hij : i = j := nodup_get_fst_inj hnd h hj (by rw [hget, hjk])
      subst hij
      rw [hv]
      congr 1
      omega

theorem ensureStep_pairwise {V : Type} (vcmp : V → V → Int)
    (htot : ∀ a b, vcmp a b ≤ 0 ∨ vcmp b a ≤ 0)
    (htrans : ∀ a b c, vcmp a b ≤ 0 → vcmp b c ≤ 0 → vcmp a c ≤ 0)
    (s : PropSort V) (hse : s.isSorted = true → s.orderedDocs = []) :
    ((ensureStep (liftCmp vcmp) s).orderedDocs).Pairwise
      (fun a b => vcmp a.2 b.2 ≤ 0) := by
  unfold ensureStep
  by_cases hs : (ensureOrderedDocsAreDeletedByProperty s).isSorted
  · rw [if_pos hs, flush_sortedEmpty hse hs]
    exact List.Pairwise.nil
  · rw [if_neg hs]
    simp only [ensurePropertyIsSorted]
    exact jsSort_pairwise (liftCmp vcmp)
      (fun a b => htot a.2 b.2) (fun a b c => htrans a.2 b.2 c.2) _

theorem pairwise_of_mem_left {α : Type} (R : α → α → Prop) (P : α → Prop)
    (h : ∀ x y, P x → R x y) :
    ∀ l : List α, (∀ x ∈ l, P x) → l.Pairwise R := by
  intro l
  induction l with
  | nil => intro _; exact List.Pairwise.nil
  | cons x l ih =>
    intro hall
    refine List.Pairwise.cons ?_ (ih (fun y hy => hall y (List.mem_cons_of_mem x hy)))
    intro y _
    exact h x y (hall x (List.mem_cons_self x l))

theorem pairwise_of_mem_right {α : Type} (R : α → α → Prop) (P : α → Prop)
    (h : ∀ x y, P y → R x y) :
    ∀ l : List α, (∀ x ∈ l, P x) → l.Pairwise R := by
  intro l
  induction l with
  | nil => intro _; exact List.Pairwise.nil
  | cons x l ih =>
    intro hall
    refine List.Pairwise.cons ?_ (ih (fun y hy => hall y (List.mem_cons_of_mem x hy)))
    intro y hy
    exact h x y (hall y (List.mem_cons_of_mem x hy))

theorem orderedInsert_append_skip {α : Type} (r : α → α → Prop) [DecidableRel r]
    (x : α) (l1 l2 : List α) (h : ∀ y ∈ l1, ¬r x y) :
    List.orderedInsert r x (l1 ++ l2) = l1 ++ List.orderedInsert r x l2 := by
  induction l1 with
  | nil => rfl
  | cons y l1 ih =>
    rw [List.cons_append, List.orderedInsert,
      if_neg (h y (List.mem_cons_self y l1)), List.cons_append,
      ih (fun z hz => h z (List.mem_cons_of_mem y hz))]

/-- Shape of the boolean sort: the comparator `d[1] ? -1 : 1` makes every
element insert in front of the earliest entry whose value is `true`, so
the sorted sequence is all `false` entries (in reversed insertion order)
followed by all `true` entries (in insertion order). -/
theorem jsSort_booleanSort_shape (l : List (Nat × Bool)) :
    jsSort booleanSort l =
      (l.filter (fun d => !d.2)).reverse ++ l.filter (fun d => d.2) := by
  induction l with
  | nil => rfl
  | cons b l ih =>
    have ih2 : List.insertionSort (fun a b => booleanSort a b ≤ 0) l =
        (l.filter (fun d => !d.2)).reverse ++ l.filter (fun d => d.2) := ih
    show List.orderedInsert _ b (List.insertionSort _ l) = _
    rw [ih2]
    have hr : ∀ a y : Nat × Bool, (booleanSort a y ≤ 0) ↔ y.2 = true := by
      intro a y
      unfold booleanSort
      by_cases hy : y.2
      · simp [hy]
      · simp only [Bool.not_eq_true] at hy
        simp [hy]
    rw [orderedInsert_append_skip _ b _ _ ?hskip]
    case hskip =>
      intro y hy
      have hmem := List.mem_reverse.mp hy
      have := (List.mem_filter.mp hmem).2
      rw [hr]
      simp only [Bool.not_eq_true]
      simpa using this
    have hins : List.orderedInsert (fun a c => booleanSort a c ≤ 0) b
        (l.filter (fun d => d.2)) = b :: l.filter (fun d => d.2) := by
      cases hT : l.filter (fun d => d.2) with
      | nil => rfl
      | cons t T2 =>
        have ht : t.2 = true := by
          have : t ∈ l.filter (fun d => d.2) := by rw [hT]; exact List.mem_cons_self t T2
          simpa using (List.mem_filter.mp this).2
        rw [List.orderedInsert, if_pos ((hr b t).mpr ht)]
    rw [hins]
    by_cases hb : b.2
    · rw [List.filter_cons, List.filter_cons]
      simp [hb]
    · simp only [Bool.not_eq_true] at hb
      rw [List.filter_cons, List.filter_cons]
      simp only [hb, Bool.not_false, if_pos, Bool.false_eq_true, if_false]
      rw [List.reverse_cons, List.append_assoc]
      rfl

/-- After an ensure step, every `false`-valued entry of a boolean
property precedes every `true`-valued entry. -/
theorem ensureStep_boolean_blocks (s : PropSort Bool)
    (hse : s.isSorted = true → s.orderedDocs = []) :
    ((ensureStep booleanSort s).orderedDocs).Pairwise
      (fun a b => a.2 = false ∨ b.2 = true) := by
  unfold ensureStep
  by_cases hs : (ensureOrderedDocsAreDeletedByProperty s).isSorted
  · rw [if_pos hs, flush_sortedEmpty hse hs]
    exact List.Pairwise.nil
  · rw [if_neg hs]
    simp only [ensurePropertyIsSorted]
    rw [jsSort_booleanSort_shape]
    rw [List.pairwise_append]
    refine ⟨?_, ?_, ?_⟩
    · refine pairwise_of_mem_left _ (fun d : Nat × Bool => d.2 = false) (fun x y hx => Or.inl hx) _ ?_
      intro x hx
      have := (List.mem_filter.mp (List.mem_reverse.mp hx)).2
      simpa using this
    · refine pairwise_of_mem_right _ (fun d : Nat × Bool => d.2 = true) (fun x y hy => Or.inr hy) _ ?_
      intro x hx
      simpa using (List.mem_filter.mp hx).2
    · intro a ha b _
      have := (List.mem_filter.mp (List.mem_reverse.mp ha)).2
      exact Or.inl (by simpa using this)

theorem sortByCompare_total (isDesc : Bool) (docs : List (Nat × Nat)) :
    ∀ a b, sortByCompare isDesc docs a b ≤ 0 ∨ sortByCompare isDesc docs b a ≤ 0 := by
  intro a b
  unfold sortByCompare
  cases ha : aget docs a.1 <;> cases hb : aget docs b.1 <;> dsimp only <;>
    first
    | omega
    | (split_ifs <;> omega)

theorem sortByCompare_trans (isDesc : Bool) (docs : List (Nat × Nat)) :
    ∀ a b c, sortByCompare isDesc docs a b ≤ 0 → sortByCompare isDesc docs b c ≤ 0 →
      sortByCompare isDesc docs a c ≤ 0 := by
  intro a b c
  unfold sortByCompare
  cases ha : aget docs a.1 <;> cases hb : aget docs b.1 <;> cases hc : aget docs c.1 <;>
    dsimp only <;>
    first
    | omega
    | (split_ifs <;> omega)

/-- C1: after inserting document 7 as the first document of a property,
`docs` records it at position 0, and the sorter's `remove` — contrary to
the claim — returns with the state unchanged: the `if (!index)` falsy
check treats position 0 as absence, so the id is neither deleted from
`docs` nor added to the pending-removal set. -/
theorem C1_remove_at_position_zero_is_noop :
    sorterRemove (runSortOps (initPropSort Int) [SortOp.ins 7 5]) 7
        = runSortOps (initPropSort Int) [SortOp.ins 7 5]
      ∧ aget (runSortOps (initPropSort Int) [SortOp.ins 7 5]).docs 7 = some 0
      ∧ (runSortOps (initPropSort Int) [SortOp.ins 7 5]).orderedDocsToRemove = [] := by
  refine ⟨rfl, rfl, rfl⟩

/-- C2 counterexample: for a boolean property holding documents 1
(value `true`) and 2 (value `false`), the ensure step produces
`orderedDocs = [(2, false), (1, true)]`, which is not sorted in the
specification's boolean order (`true` precedes `false`), so the claimed
conjunction of per-type sortedness and position-map consistency fails. -/
theorem C2_counterexample :
    ¬ (((ensureStep booleanSort (runSortOps (initPropSort Bool)
          [SortOp.ins 1 true, SortOp.ins 2 false])).orderedDocs).Pairwise specBooleanLe
        ∧ docsConsistent (ensureStep booleanSort (runSortOps (initPropSort Bool)
          [SortOp.ins 1 true, SortOp.ins 2 false]))) :=
  fun h => absurd h.1 (by decide)

/-- C2 (amended): after any well-formed insert/remove sequence followed
by the ensure step, `orderedDocs` is sorted by the type's comparator —
for strings any locale comparator that is total and transitive at the
non-positive level, for numbers ascending by value, and for booleans
with every `false` entry before every `true` entry (not the claimed
`true`-first order) — and the rebuilt position map satisfies
`docs[id] = i` iff `orderedDocs[i]` carries `id`. -/
theorem C2_ensure_sorted_and_consistent
    (scmp : String → String → Int)
    (hstot : ∀ a b, scmp a b ≤ 0 ∨ scmp b a ≤ 0)
    (hstrans : ∀ a b c, scmp a b ≤ 0 → scmp b c ≤ 0 → scmp a c ≤ 0)
    (opsS : List (SortOp String)) (hfS : freshOk (initPropSort String) opsS = true)
    (opsN : List (SortOp Int)) (hfN : freshOk (initPropSort Int) opsN = true)
    (opsB : List (SortOp Bool)) (hfB : freshOk (initPropSort Bool) opsB = true) :
    (((ensureStep (liftCmp scmp) (runSortOps (initPropSort String) opsS)).orderedDocs).Pairwise
        (fun a b => scmp a.2 b.2 ≤ 0)
      ∧ docsConsistent (ensureStep (liftCmp scmp) (runSortOps (initPropSort String) opsS)))
    ∧ (((ensureStep numerSort (runSortOps (initPropSort Int) opsN)).orderedDocs).Pairwise
        (fun a b => a.2 ≤ b.2)
      ∧ docsConsistent (ensureStep numerSort (runSortOps (initPropSort Int) opsN)))
    ∧ (((ensureStep booleanSort (runSortOps (initPropSort Bool) opsB)).orderedDocs).Pairwise
        (fun a b => a.2 = false ∨ b.2 = true)
      ∧ docsConsistent (ensureStep booleanSort (runSortOps (initPropSort Bool) opsB))) := by
  refine ⟨⟨?_, ?_⟩, ⟨?_, ?_⟩, ⟨?_, ?_⟩⟩
  · exact ensureStep_pairwise scmp hstot hstrans _
      (runSortOps_sortedEmpty _ (fun _ => rfl) opsS)
  · exact ensureStep_consistent _ opsS hfS
  · have h := ensureStep_pairwise (fun a b : Int => a - b)
      (fun a b => by dsimp only; omega)
      (fun a b c h1 h2 => by dsimp only at h1 h2 ⊢; omega)
      (runSortOps (initPropSort Int) opsN)
      (runSortOps_sortedEmpty (initPropSort Int) (fun _ => rfl) opsN)
    exact h.imp (fun hab => by dsimp only at hab; omega)
  · exact ensureStep_consistent _ opsN hfN
  · exact ensureStep_boolean_blocks _ (runSortOps_sortedEmpty _ (fun _ => rfl) opsB)
  · exact ensureStep_consistent _ opsB hfB

/-- C2 witness: the amended ensure-step theorem applied to the trivial
locale comparator and small concrete operation sequences on each type. -/
theorem C2_ensure_witness :
    (freshOk (initPropSort String) [SortOp.ins 1 "b", SortOp.ins 2 "a", SortOp.rem 2] = true)
    ∧ (freshOk (initPropSort Int) [SortOp.ins 1 9, SortOp.ins 2 3, SortOp.ins 3 7, SortOp.rem 2] = true)
    ∧ (freshOk (initPropSort Bool) [SortOp.ins 4 true, SortOp.ins 5 false] = true)
    ∧ ((((ensureStep (liftCmp (fun _ _ => 0)) (runSortOps (initPropSort String)
            [SortOp.ins 1 "b", SortOp.ins 2 "a", SortOp.rem 2])).orderedDocs).Pairwise
          (fun a b => (fun _ _ => (0 : Int)) a.2 b.2 ≤ 0)
        ∧ docsConsistent (ensureStep (liftCmp (fun _ _ => 0)) (runSortOps (initPropSort String)
            [SortOp.ins 1 "b", SortOp.ins 2 "a", SortOp.rem 2])))
      ∧ (((ensureStep numerSort (runSortOps (initPropSort Int)
            [SortOp.ins 1 9, SortOp.ins 2 3, SortOp.ins 3 7, SortOp.rem 2])).orderedDocs).Pairwise
          (fun a b => a.2 ≤ b.2)
        ∧ docsConsistent (ensureStep numerSort (runSortOps (initPropSort Int)
            [SortOp.ins 1 9, SortOp.ins 2 3, SortOp.ins 3 7, SortOp.rem 2])))
      ∧ (((ensureStep booleanSort (runSortOps (initPropSort Bool)
            [SortOp.ins 4 true, SortOp.ins 5 false])).orderedDocs).Pairwise
          (fun a b => a.2 = false ∨ b.2 = true)
        ∧ docsConsistent (ensureStep booleanSort (runSortOps (initPropSort Bool)
            [SortOp.ins 4 true, SortOp.ins 5 false])))) :=
  ⟨by decide, by decide, by decide,
    C2_ensure_sorted_and_consistent (fun _ _ => 0)
      (fun a b => Or.inl (le_refl 0)) (fun a b c h1 h2 => le_refl 0)
      [SortOp.ins 1 "b", SortOp.ins 2 "a", SortOp.rem 2] (by decide)
      [SortOp.ins 1 9, SortOp.ins 2 3, SortOp.ins 3 7, SortOp.rem 2] (by decide)
      [SortOp.ins 4 true, SortOp.ins 5 false] (by decide)⟩

/-- C3 counterexample: inserting document 5 with value `false` and
document 6 with value `true` and running the ensure step yields
`orderedDocs = [(5, false), (6, true)]`: the `true` entry does not
precede the `false` entry, refuting the claim. -/
theorem C3_counterexample :
    ¬ trueEntriesFirst (ensureStep booleanSort (runSortOps (initPropSort Bool)
      [SortOp.ins 5 false, SortOp.ins 6 true])).orderedDocs := by
  decide

/-- C3 (amended): after the ensure step on a boolean property, every
entry whose value is `false` precedes every entry whose value is `true`
in `orderedDocs` — the comparator `d[1] ? -1 : 1` sinks `true` entries
to the end, the opposite of the claimed order. -/
theorem C3_false_entries_precede_true (ops : List (SortOp Bool)) :
    ((ensureStep booleanSort (runSortOps (initPropSort Bool) ops)).orderedDocs).Pairwise
      (fun a b => a.2 = false ∨ b.2 = true) :=
  ensureStep_boolean_blocks _ (runSortOps_sortedEmpty _ (fun _ => rfl) ops)

/-- C8: `sortBy` returns a permutation of the candidate list in which
indexed ids come first in ascending recorded position (descending when
`DESC`), un-indexed ids all sort after indexed ones, and the un-indexed
ids keep their original relative order. -/
theorem C8_sortBy_reorders {V : Type} (cmp : (Nat × V) → (Nat × V) → Int)
    (isDesc : Bool) (s : PropSort V) (docIds : List (Nat × Int)) :
    (sortBy cmp isDesc s docIds).Perm docIds
    ∧ (sortBy cmp isDesc s docIds).Pairwise
        (sortByKeyRel isDesc (ensureStep cmp s).docs)
    ∧ (sortBy cmp isDesc s docIds).filter
        (fun a => (aget (ensureStep cmp s).docs a.1).isNone)
      = docIds.filter (fun a => (aget (ensureStep cmp s).docs a.1).isNone) := by
  refine ⟨jsSort_perm _ docIds, ?_, ?_⟩
  · have h := jsSort_pairwise (sortByCompare isDesc (ensureStep cmp s).docs)
      (sortByCompare_total isDesc _) (sortByCompare_trans isDesc _) docIds
    refine h.imp ?_
    intro a b hab
    unfold sortByCompare at hab
    unfold sortByKeyRel
    cases haa : aget (ensureStep cmp s).docs a.1 <;>
      cases hbb : aget (ensureStep cmp s).docs b.1 <;>
      rw [haa, hbb] at hab <;> dsimp only at hab ⊢ <;>
      first
      | trivial
      | omega
      | (split_ifs at hab ⊢ <;> omega)
  · refine jsSort_filter_stable _ _ ?_ docIds
    intro x y hx hcmp
    cases hyy : aget (ensureStep cmp s).docs y.1 with
    | none =>
      exfalso
      apply hcmp
      unfold sortByCompare
      rw [Option.isNone_iff_eq_none] at hx
      rw [hx, hyy]
    | some j =>
      rfl

/-- C4: removing the score parameters of the last document indexed on a
property (`docsCount == 1`) does not reset `avgFieldLength` to 0: the
source divides by `docsCount - 1 = 0` and the average becomes `NaN`
(`(2 * 1 - 2) / 0 = 0 / 0`). -/
theorem C4_remove_last_document_avg_nan :
    (removeDocumentScoreParameters
        (insertStringScalar initFieldStats 1 ["a", "b"] 1) 1 1).avgFieldLength
      = JSNum.nan
    ∧ JSNum.nan ≠ JSNum.num 0 := by
  exact ⟨by decide, by decide⟩

/-- C5: inserting a document into an empty index and removing it again
(matching `docsCount = 1` on both sides) does not restore
`avgFieldLength`: the pre-insert value is 0 but the remove path divides
by zero and leaves `NaN`, outside any tolerance. -/
theorem C5_insert_remove_leaves_nan :
    (removeStringScalar (insertStringScalar initFieldStats 1 ["a", "b"] 1)
        1 ["a", "b"] 1).avgFieldLength = JSNum.nan
    ∧ initFieldStats.avgFieldLength = JSNum.num 0
    ∧ ¬ withinTolerance
        (removeStringScalar (insertStringScalar initFieldStats 1 ["a", "b"] 1)
          1 ["a", "b"] 1).avgFieldLength
        initFieldStats.avgFieldLength := by
  have h1 : (removeStringScalar (insertStringScalar initFieldStats 1 ["a", "b"] 1)
      1 ["a", "b"] 1).avgFieldLength = JSNum.nan := by decide
  refine ⟨h1, rfl, ?_⟩
  rintro ⟨qa, qb, ha, hb, hd⟩
  rw [h1] at ha
  exact JSNum.noConfusion ha

/-- C7: removing an id that is absent from the targeted boolean bucket
is not a no-op: `indexOf` yields `-1` and `splice(-1, 1)` deletes the
last element of the bucket, evicting an unrelated document (here id 2
from the `true` bucket `[1, 2]` when removing the absent id 3). -/
theorem C7_remove_absent_id_removes_last :
    removeBooleanScalar ⟨[1, 2], []⟩ true 3 = ⟨[1], []⟩
    ∧ (⟨[1], []⟩ : BooleanIndex) ≠ ⟨[1, 2], []⟩ := by
  exact ⟨by decide, by decide⟩

section MoreAssoc

variable {κ α : Type} [DecidableEq κ]

theorem aget_append_not_mem (m1 m2 : List (κ × α)) (k : κ)
    (h : k ∉ m1.map Prod.fst) : aget (m1 ++ m2) k = aget m2 k := by
  induction m1 with
  | nil => rfl
  | cons e m1 ih =>
    simp only [List.map_cons, List.mem_cons, not_or] at h
    rw [List.cons_append, aget, if_neg (fun he => h.1 he.symm)]
    exact ih h.2

theorem aset_eq_append (m : List (κ × α)) (k : κ) (v : α)
    (h : k ∉ m.map Prod.fst) : aset m k v = m ++ [(k, v)] := by
  induction m with
  | nil => rfl
  | cons e m ih =>
    simp only [List.map_cons, List.mem_cons, not_or] at h
    rw [aset, if_neg (fun he => h.1 he.symm), List.cons_append, ih h.2]

theorem aget_some_mem (m : List (κ × α)) (k : κ) (v : α)
    (h : aget m k = some v) : (k, v) ∈ m := by
  induction m with
  | nil => exact absurd h (by rw [aget]; exact Option.noConfusion)
  | cons e m ih =>
    rw [aget] at h
    by_cases he : e.1 = k
    · rw [if_pos he] at h
      have hv := Option.some.inj h
      have hkv : (k, v) = e := by rw [← he, ← hv]
      rw [hkv]
      exact List.mem_cons_self e m
    · rw [if_neg he] at h
      exact List.mem_cons_of_mem e (ih h)

end MoreAssoc

theorem occRead_aset_ne (occ : List (String × JSNum)) (t u : String)
    (v : JSNum) (h : t ≠ u) : occRead (aset occ u v) t = occRead occ t := by
  unfold occRead
  rw [aget_aset_ne _ _ _ _ h]

theorem occRead_occBump_ne (occ : List (String × JSNum)) (t u : String)
    (h : t ≠ u) : occRead (occBump occ u) t = occRead occ t := by
  unfold occBump
  exact occRead_aset_ne _ _ _ _ h

theorem occBumpAll_not_mem :
    ∀ (l : List String) (occ : List (String × JSNum)) (t : String), t ∉ l →
      aget (occBumpAll occ l) t = aget occ t := by
  intro l
  induction l with
  | nil => intro occ t _; rfl
  | cons u l ih =>
    intro occ t ht
    simp only [List.mem_cons, not_or] at ht
    show aget (occBumpAll (occBump occ u) l) t = aget occ t
    rw [ih _ t ht.2]
    unfold occBump
    rw [aget_aset_ne _ _ _ _ ht.1]

theorem occBumpAll_mem :
    ∀ (l : List String) (occ : List (String × JSNum)) (t : String), l.Nodup → t ∈ l →
      aget (occBumpAll occ l) t = some (occRead occ t + JSNum.num 1) := by
  intro l
  induction l with
  | nil => intro occ t _ ht; simp at ht
  | cons u l ih =>
    intro occ t hnd ht
    rw [List.nodup_cons] at hnd
    show aget (occBumpAll (occBump occ u) l) t = _
    by_cases htu : t = u
    · subst htu
      rw [occBumpAll_not_mem l _ t hnd.1]
      unfold occBump
      rw [aget_aset_self]
    · rcases List.mem_cons.mp ht with h | h
      · exact absurd h htu
      · rw [ih _ t hnd.2 h, occRead_occBump_ne _ _ _ htu]

theorem occDecRead_aset_ne (occ : List (String × JSNum)) (t u : String)
    (v : JSNum) (h : t ≠ u) : occDecRead (aset occ u v) t = occDecRead occ t := by
  unfold occDecRead
  rw [aget_aset_ne _ _ _ _ h]

theorem occDecRead_occDec_ne (occ : List (String × JSNum)) (t u : String)
    (h : t ≠ u) : occDecRead (occDec occ u) t = occDecRead occ t := by
  unfold occDec
  exact occDecRead_aset_ne _ _ _ _ h

theorem occDecAll_not_mem :
    ∀ (l : List String) (occ : List (String × JSNum)) (t : String), t ∉ l →
      aget (occDecAll occ l) t = aget occ t := by
  intro l
  induction l with
  | nil => intro occ t _; rfl
  | cons u l ih =>
    intro occ t ht
    simp only [List.mem_cons, not_or] at ht
    show aget (occDecAll (occDec occ u) l) t = aget occ t
    rw [ih _ t ht.2]
    unfold occDec
    rw [aget_aset_ne _ _ _ _ ht.1]

theorem occDecAll_mem :
    ∀ (l : List String) (occ : List (String × JSNum)) (t : String), l.Nodup → t ∈ l →
      aget (occDecAll occ l) t = some (occDecRead occ t - JSNum.num 1) := by
  intro l
  induction l with
  | nil => intro occ t _ ht; simp at ht
  | cons u l ih =>
    intro occ t hnd ht
    rw [List.nodup_cons] at hnd
    show aget (occDecAll (occDec occ u) l) t = _
    by_cases htu : t = u
    · subst htu
      rw [occDecAll_not_mem l _ t hnd.1]
      unfold occDec
      rw [aget_aset_self]
    · rcases List.mem_cons.mp ht with h | h
      · exact absurd h htu
      · rw [ih _ t hnd.2 h, occDecRead_occDec_ne _ _ _ htu]

theorem aset_append_last {κ α : Type} [DecidableEq κ] :
    ∀ (m1 : List (κ × α)) (k : κ) (w v : α), k ∉ m1.map Prod.fst →
      aset (m1 ++ [(k, w)]) k v = m1 ++ [(k, v)] := by
  intro m1
  induction m1 with
  | nil => intro k w v _; simp [aset]
  | cons e m1 ih =>
    intro k w v h
    simp only [List.map_cons, List.mem_cons, not_or] at h
    rw [List.cons_append, aset, if_neg (fun he => h.1 he.symm), List.cons_append,
      ih k w v h.2]

theorem insertTok_effect (tokens : List String) (id : Nat) (t : String)
    (avg : JSNum) (fl : List (Nat × ℚ)) (occ : List (String × JSNum))
    (fr0 : List (Nat × List (String × ℚ))) (dm : List (String × ℚ))
    (hid : id ∉ fr0.map Prod.fst) :
    insertTokenScoreParameters ⟨avg, fl, occ, fr0 ++ [(id, dm)]⟩ id tokens t =
      ⟨avg, fl, occBump occ t, fr0 ++ [(id, aset dm t (tfValue tokens t))]⟩ := by
  unfold insertTokenScoreParameters occBump occRead
  rw [aget_append_not_mem _ _ _ hid]
  show (⟨avg, fl, _, aset (fr0 ++ [(id, dm)]) id _⟩ : FieldStats) = _
  rw [aset_append_last fr0 id dm _ hid]
  have hg : (aget [(id, dm)] id).getD [] = dm := by
    rw [aget, if_pos rfl]
    rfl
  rw [hg]

theorem insertTok_fold (tokens : List String) (id : Nat) :
    ∀ (l : List String) (avg : JSNum) (fl : List (Nat × ℚ))
      (occ : List (String × JSNum)) (fr0 : List (Nat × List (String × ℚ)))
      (dm : List (String × ℚ)), id ∉ fr0.map Prod.fst →
      l.foldl (fun s t => insertTokenScoreParameters s id tokens t)
          ⟨avg, fl, occ, fr0 ++ [(id, dm)]⟩ =
        ⟨avg, fl, occBumpAll occ l,
          fr0 ++ [(id, l.foldl (fun m t => aset m t (tfValue tokens t)) dm)]⟩ := by
  intro l
  induction l with
  | nil => intro avg fl occ fr0 dm _; rfl
  | cons t l ih =>
    intro avg fl occ fr0 dm hid
    show l.foldl _ (insertTokenScoreParameters ⟨avg, fl, occ, fr0 ++ [(id, dm)]⟩ id tokens t) = _
    rw [insertTok_effect tokens id t avg fl occ fr0 dm hid]
    exact ih avg fl (occBump occ t) fr0 (aset dm t (tfValue tokens t)) hid

theorem removeTok_fold :
    ∀ (l : List String) (avg : JSNum) (fl : List (Nat × ℚ))
      (occ : List (String × JSNum)) (fr : List (Nat × List (String × ℚ))),
      l.foldl (fun s t => removeTokenScoreParameters s t) ⟨avg, fl, occ, fr⟩ =
        ⟨avg, fl, occDecAll occ l, fr⟩ := by
  intro l
  induction l with
  | nil => intro avg fl occ fr; rfl
  | cons t l ih =>
    intro avg fl occ fr
    show l.foldl _ (removeTokenScoreParameters ⟨avg, fl, occ, fr⟩ t) = _
    exact ih avg fl (occDec occ t) fr

theorem insertStringScalar_effect (st : FieldStats) (id : Nat)
    (tokens : List String) (dc : Int)
    (hid : aget st.frequencies id = none) :
    insertStringScalar st id tokens dc =
      ⟨(st.avgFieldLength * JSNum.num ((dc : ℚ) - 1)
          + JSNum.num (tokens.length : ℚ)) / JSNum.num (dc : ℚ),
        aset st.fieldLengths id (tokens.length : ℚ),
        occBumpAll st.tokenOccurrencies tokens,
        st.frequencies ++ [(id, mkFreqMap tokens)]⟩ := by
  have hnm : id ∉ st.frequencies.map Prod.fst := by
    intro hc
    rw [← aget_isSome_iff_mem, hid] at hc
    simp at hc
  unfold insertStringScalar insertDocumentScoreParameters
  rw [aset_eq_append _ _ _ hnm]
  exact insertTok_fold tokens id tokens _ _ _ _ _ hnm

theorem removeStringScalar_effect (st : FieldStats) (id : Nat)
    (tokens : List String) (dc : Int) :
    removeStringScalar st id tokens dc =
      ⟨(st.avgFieldLength * JSNum.num (dc : ℚ)
          - jsnOfLength (aget st.fieldLengths id)) / JSNum.num ((dc : ℚ) - 1),
        adel st.fieldLengths id,
        occDecAll st.tokenOccurrencies tokens,
        adel st.frequencies id⟩ := by
  unfold removeStringScalar removeDocumentScoreParameters
  exact removeTok_fold tokens _ _ _ _

theorem foldl_aset_not_mem {κ β : Type} [DecidableEq κ] (f : κ → β) :
    ∀ (l : List κ) (m : List (κ × β)) (k : κ), k ∉ l →
      aget (l.foldl (fun m t => aset m t (f t)) m) k = aget m k := by
  intro l
  induction l with
  | nil => intro m k _; rfl
  | cons t l ih =>
    intro m k hk
    simp only [List.mem_cons, not_or] at hk
    show aget (l.foldl _ (aset m t (f t))) k = aget m k
    rw [ih _ k hk.2, aget_aset_ne _ _ _ _ hk.1]

theorem foldl_aset_mem {κ β : Type} [DecidableEq κ] (f : κ → β) :
    ∀ (l : List κ) (m : List (κ × β)) (k : κ), l.Nodup → k ∈ l →
      aget (l.foldl (fun m t => aset m t (f t)) m) k = some (f k) := by
  intro l
  induction l with
  | nil => intro m k _ hk; simp at hk
  | cons t l ih =>
    intro m k hnd hk
    rw [List.nodup_cons] at hnd
    show aget (l.foldl _ (aset m t (f t))) k = some (f k)
    by_cases hkt : k = t
    · subst hkt
      rw [foldl_aset_not_mem f l _ k hnd.1, aget_aset_self]
    · rcases List.mem_cons.mp hk with h | h
      · exact absurd h hkt
      · exact ih _ k hnd.2 h

theorem mkFreqMap_aget (tokens : List String) (t : String) (hnd : tokens.Nodup) :
    aget (mkFreqMap tokens) t =
      if t ∈ tokens then some (tfValue tokens t) else none := by
  unfold mkFreqMap
  by_cases h : t ∈ tokens
  · rw [if_pos h]
    exact foldl_aset_mem _ tokens [] t hnd h
  · rw [if_neg h]
    rw [foldl_aset_not_mem _ tokens [] t h]
    rfl

theorem tfValue_pos (tokens : List String) (t : String) (h : t ∈ tokens) :
    0 < tfValue tokens t := by
  unfold tfValue
  have hc : 0 < tokens.count t := List.count_pos_iff.mpr h
  have hl : 0 < tokens.length := List.length_pos.mpr (List.ne_nil_of_mem h)
  have hc2 : (0 : ℚ) < (tokens.count t : ℚ) := by exact_mod_cast hc
  have hl2 : (0 : ℚ) < (tokens.length : ℚ) := by exact_mod_cast hl
  exact div_pos hc2 hl2

theorem hasTok_mkFreqMap (tokens : List String) (t : String) (id : Nat)
    (hnd : tokens.Nodup) :
    hasTok t (id, mkFreqMap tokens) = decide (t ∈ tokens) := by
  unfold hasTok
  rw [mkFreqMap_aget tokens t hnd]
  by_cases h : t ∈ tokens
  · rw [if_pos h]
    simp [h, tfValue_pos tokens t h]
  · rw [if_neg h]
    simp [h]

theorem length_filter_append_single {A : Type} (p : A → Bool) (fr : List A) (e : A) :
    ((fr ++ [e]).filter p).length =
      (fr.filter p).length + (if p e then 1 else 0) := by
  rw [List.filter_append, List.length_append, List.filter_cons]
  by_cases h : p e
  · simp [h]
  · simp only [Bool.not_eq_true] at h
    simp [h]

theorem length_filter_adel {κ α : Type} [DecidableEq κ] (p : (κ × α) → Bool) :
    ∀ (m : List (κ × α)) (k : κ) (v : α), (m.map Prod.fst).Nodup →
      aget m k = some v →
      (m.filter p).length = ((adel m k).filter p).length + (if p (k, v) then 1 else 0) := by
  intro m
  induction m with
  | nil => intro k v _ hget; exact absurd hget (by rw [aget]; exact Option.noConfusion)
  | cons e m ih =>
    intro k v hnd hget
    simp only [List.map_cons, List.nodup_cons] at hnd
    rw [aget] at hget
    by_cases he : e.1 = k
    · rw [if_pos he] at hget
      have hv := Option.some.inj hget
      have hkv : (k, v) = e := by rw [← he, ← hv]
      rw [adel, if_pos he, List.filter_cons, ← hkv]
      by_cases hp : p (k, v)
      · simp [hp]
      · simp only [Bool.not_eq_true] at hp
        simp [hp]
    · rw [if_neg he] at hget
      rw [adel, if_neg he, List.filter_cons, List.filter_cons]
      by_cases hp : p e
      · simp only [hp, if_pos]
        rw [List.length_cons, List.length_cons, ih k v hnd.2 hget]
        omega
      · simp only [Bool.not_eq_true] at hp
        simp only [hp, Bool.false_eq_true, if_false]
        exact ih k v hnd.2 hget

theorem IdxInv_init : IdxInv initFieldStats := by
  constructor
  · exact List.nodup_nil
  · intro t
    rfl

theorem IdxInv_insert (st : FieldStats) (id : Nat) (tokens : List String)
    (dc : Int) (hinv : IdxInv st) (hnd : tokens.Nodup)
    (hid : aget st.frequencies id = none) :
    IdxInv (insertStringScalar st id tokens dc) := by
  have hnm : id ∉ st.frequencies.map Prod.fst := by
    intro hc
    rw [← aget_isSome_iff_mem, hid] at hc
    simp at hc
  rw [insertStringScalar_effect st id tokens dc hid]
  constructor
  · simp only [List.map_append, List.map_cons, List.map_nil]
    simp [List.nodup_append, hinv.1, hnm]
  · intro t
    show occRead (occBumpAll st.tokenOccurrencies tokens) t
        = JSNum.num ((((st.frequencies ++ [(id, mkFreqMap tokens)]).filter
            (hasTok t)).length : ℚ))
    have hcount : ((st.frequencies ++ [(id, mkFreqMap tokens)]).filter (hasTok t)).length
        = (st.frequencies.filter (hasTok t)).length + (if t ∈ tokens then 1 else 0) := by
      rw [length_filter_append_single, hasTok_mkFreqMap tokens t id hnd]
      by_cases h : t ∈ tokens
      · simp [h]
      · simp [h]
    have hocc : occRead st.tokenOccurrencies t
        = JSNum.num (((st.frequencies.filter (hasTok t)).length : ℚ)) := hinv.2 t
    rw [hcount]
    by_cases h : t ∈ tokens
    · rw [if_pos h]
      have hread : occRead (occBumpAll st.tokenOccurrencies tokens) t
          = occRead st.tokenOccurrencies t + JSNum.num 1 := by
        unfold occRead
        rw [occBumpAll_mem tokens st.tokenOccurrencies t hnd h]
        rfl
      rw [hread, hocc]
      show JSNum.num (((st.frequencies.filter (hasTok t)).length : ℚ) + 1) = _
      congr 1
      push_cast
      ring
    · rw [if_neg h]
      have hread : occRead (occBumpAll st.tokenOccurrencies tokens) t
          = occRead st.tokenOccurrencies t := by
        unfold occRead
        rw [occBumpAll_not_mem tokens st.tokenOccurrencies t h]
      rw [hread, hocc, Nat.add_zero]

theorem IdxInv_remove (st : FieldStats) (id : Nat) (tokens : List String)
    (dc : Int) (hinv : IdxInv st) (hnd : tokens.Nodup)
    (hget : aget st.frequencies id = some (mkFreqMap tokens)) :
    IdxInv (removeStringScalar st id tokens dc) := by
  rw [removeStringScalar_effect st id tokens dc]
  constructor
  · exact nodup_map_fst_adel _ _ hinv.1
  · intro t
    show occRead (occDecAll st.tokenOccurrencies tokens) t
        = JSNum.num ((((adel st.frequencies id).filter (hasTok t)).length : ℚ))
    have hcount : (st.frequencies.filter (hasTok t)).length
        = ((adel st.frequencies id).filter (hasTok t)).length
          + (if t ∈ tokens then 1 else 0) := by
      rw [length_filter_adel (hasTok t) st.frequencies id (mkFreqMap tokens) hinv.1 hget,
        hasTok_mkFreqMap tokens t id hnd]
      by_cases h : t ∈ tokens
      · simp [h]
      · simp [h]
    have hocc : occRead st.tokenOccurrencies t
        = JSNum.num (((st.frequencies.filter (hasTok t)).length : ℚ)) := hinv.2 t
    by_cases h : t ∈ tokens
    · rw [if_pos h] at hcount
      have hpos : 0 < (st.frequencies.filter (hasTok t)).length := by omega
      have hsome : aget st.tokenOccurrencies t
          = some (JSNum.num (((st.frequencies.filter (hasTok t)).length : ℚ))) := by
        unfold occRead at hocc
        cases hag : aget st.tokenOccurrencies t with
        | none =>
          rw [hag] at hocc
          dsimp only at hocc
          have h0 := JSNum.num.inj hocc
          have hz : (st.frequencies.filter (hasTok t)).length = 0 := by
            exact_mod_cast h0.symm
          omega
        | some v =>
          rw [hag] at hocc
          dsimp only at hocc
          rw [hocc]
      have hread : occRead (occDecAll st.tokenOccurrencies tokens) t
          = JSNum.num (((st.frequencies.filter (hasTok t)).length : ℚ)) - JSNum.num 1 := by
        unfold occRead
        rw [occDecAll_mem tokens st.tokenOccurrencies t hnd h]
        dsimp only
        unfold occDecRead
        rw [hsome]
      rw [hread]
      show JSNum.num (((st.frequencies.filter (hasTok t)).length : ℚ) - 1) = _
      congr 1
      rw [hcount]
      push_cast
      ring
    · rw [if_neg h, Nat.add_zero] at hcount
      have hread : occRead (occDecAll st.tokenOccurrencies tokens) t
          = occRead st.tokenOccurrencies t := by
        unfold occRead
        rw [occDecAll_not_mem tokens st.tokenOccurrencies t h]
      rw [hread, hocc, hcount]

theorem IdxInv_runOps (st : FieldStats) (ops : List IdxOp) (hinv : IdxInv st)
    (hv : idxOpsValid st ops = true) : IdxInv (runIdxOps st ops) := by
  induction ops generalizing st with
  | nil => exact hinv
  | cons op ops ih =>
    cases op with
    | ins id tokens dc =>
      rw [idxOpsValid, Bool.and_eq_true, Bool.and_eq_true] at hv
      rcases hv with ⟨⟨h1, h2⟩, h3⟩
      rw [decide_eq_true_eq] at h1 h2
      exact ih _ (IdxInv_insert st id tokens dc hinv h1 h2) h3
    | rem id tokens dc =>
      rw [idxOpsValid, Bool.and_eq_true, Bool.and_eq_true] at hv
      rcases hv with ⟨⟨h1, h2⟩, h3⟩
      rw [decide_eq_true_eq] at h1 h2
      exact ih _ (IdxInv_remove st id tokens dc hinv h1 h2) h3

/-- C6 counterexample: for a `string[]` property, inserting one document
whose two elements tokenize to `["a"]` and `["a", "b"]` drives
`tokenOccurrencies["a"]` to 2 although only this single document stores
a positive frequency for `"a"`: each array element re-runs the token
loop and `insertDocumentScoreParameters` resets the frequency map. -/
theorem C6_counterexample :
    occValue (insertStringArray initFieldStats 1 [["a"], ["a", "b"]] 1) "a"
        = JSNum.num 2
    ∧ docFreqCount (insertStringArray initFieldStats 1 [["a"], ["a", "b"]] 1) "a" = 1
    ∧ JSNum.num 2 ≠ JSNum.num ((1 : ℚ)) := by
  exact ⟨by decide, by decide, by decide⟩

/-- C6 (amended): on a scalar string property, for well-formed operation
sequences — duplicate-free token lists, each document inserted while
absent and removed with its original token list — the occurrence counter
of every token equals the number of documents whose stored frequency for
that token is positive. -/
theorem C6_token_occurrences_scalar (ops : List IdxOp)
    (h : idxOpsValid initFieldStats ops = true) :
    ∀ t, occValue (runIdxOps initFieldStats ops) t
      = JSNum.num ((docFreqCount (runIdxOps initFieldStats ops) t : ℚ)) :=
  (IdxInv_runOps initFieldStats ops IdxInv_init h).2

/-- C6 witness: the amended occurrence invariant applied to a concrete
insert/insert/remove sequence. -/
theorem C6_token_occurrences_witness :
    idxOpsValid initFieldStats
        [IdxOp.ins 1 ["a", "b"] 1, IdxOp.ins 2 ["b"] 2, IdxOp.rem 1 ["a", "b"] 2] = true
    ∧ ∀ t, occValue (runIdxOps initFieldStats
          [IdxOp.ins 1 ["a", "b"] 1, IdxOp.ins 2 ["b"] 2, IdxOp.rem 1 ["a", "b"] 2]) t
        = JSNum.num ((docFreqCount (runIdxOps initFieldStats
            [IdxOp.ins 1 ["a", "b"] 1, IdxOp.ins 2 ["b"] 2, IdxOp.rem 1 ["a", "b"] 2]) t : ℚ)) :=
  ⟨by decide,
    C6_token_occurrences_scalar
      [IdxOp.ins 1 ["a", "b"] 1, IdxOp.ins 2 ["b"] 2, IdxOp.rem 1 ["a", "b"] 2]
      (by decide)⟩

/-- C9: the candidate ids produced by the string branch of
`searchByWhereClause` depend only on the first token of each value's
tokenization: two tokenizers that agree on first tokens produce the same
candidates, so tokens after the first never contribute. -/
theorem C9_only_first_token_used (tokenize1 tokenize2 : String → List String)
    (radixFindExact : Option String → List Nat) (operation : StringFilter)
    (h : ∀ raw ∈ flatFilterValues operation,
      (tokenize1 raw).head? = (tokenize2 raw).head?) :
    whereStringCandidates tokenize1 radixFindExact operation
      = whereStringCandidates tokenize2 radixFindExact operation := by
  unfold whereStringCandidates
  congr 1
  exact List.map_congr_left (fun raw hraw => by rw [h raw hraw])

/-- C9 witness: the first-token theorem applied to two concrete
tokenizers that differ after the first token. -/
theorem C9_only_first_token_witness :
    (∀ raw ∈ flatFilterValues (StringFilter.single "x"),
      (exTokenizerOne raw).head? = (exTokenizerTwo raw).head?)
    ∧ whereStringCandidates exTokenizerOne exRadixLookup (StringFilter.single "x")
      = whereStringCandidates exTokenizerTwo exRadixLookup (StringFilter.single "x") :=
  ⟨fun raw _ => rfl,
    C9_only_first_token_used exTokenizerOne exTokenizerTwo exRadixLookup
      (StringFilter.single "x") (fun raw _ => rfl)⟩

/-- C10: calling `search` on a property with no `tokenOccurrencies`
entry returns the empty score list without error, whatever the rest of
the pipeline would have produced (even a failure). -/
theorem C10_search_unknown_property (occProps : List (String × List (String × JSNum)))
    (prop : String) (restOfSearch : Except String (List (Nat × JSNum)))
    (h : aget occProps prop = none) :
    searchOnProperty occProps prop restOfSearch = Except.ok [] := by
  unfold searchOnProperty
  rw [h]
  rfl

/-- C10 witness: the guard theorem applied to an index whose only
string property is `"title"`, searching `"price"`, with a failing
pipeline remainder. -/
theorem C10_search_unknown_property_witness :
    aget [("title", ([] : List (String × JSNum)))] "price" = none
    ∧ searchOnProperty [("title", ([] : List (String × JSNum)))] "price"
        (Except.error "boom") = Except.ok [] :=
  ⟨rfl, C10_search_unknown_property _ "price" (Except.error "boom") rfl⟩

end Orama
